import Mathlib

/-!
Verification of the CatMOD region module (`CatMOD/region.py`): the Region
window-resizing algebra, the per-read alignment encoder, the insertion
merger helpers, and the region batch driver.

Python integers are embedded as `ℤ`; Python `//` and `%` with the positive
divisor `2` coincide with Lean's `/` and `%` on `ℤ` (Euclidean division).
Quality scores are embedded as real numbers (`ℝ`); the Python code computes
with floats, and the real-number semantics is the ideal the float code
approximates.
-/

namespace CatMOD

/-- The Python value `None`-or-int is `Option ℤ`; Python truthiness of such a
value: `None` and `0` are falsy, everything else truthy. -/
def truthy : Option ℤ → Bool
  | none => false
  | some n => n ≠ 0

/-- Python `==` between an `Option ℤ` and an `ℤ` (`None == n` is `False`). -/
def optEqInt : Option ℤ → ℤ → Bool
  | none, _ => false
  | some m, n => m = n

/-- A read/insertion base. The Python code looks bases up in the dictionaries
`_BASE_INTS` / `_BASE_INDEX`, whose shared domain is `{A, C, G, T}`. -/
inductive Base where
  | A
  | C
  | G
  | T
deriving DecidableEq, Repr

/-- The `_BASE_INTS` channel dictionary `{A:0, C:1, G:2, T:3, -:4, ^:5}`
restricted to the bases a read sequence provides (channels 4 and 5 are used
as literal indices in the encoder, not through the dictionary). -/
def _BASE_INTS : Base → ℤ
  | .A => 0
  | .C => 1
  | .G => 2
  | .T => 3

/-- The `_BASE_INDEX` digit dictionary `{A:'0', C:'1', G:'2', T:'3'}`, as the
base-4 digit value of the character. -/
def _BASE_INDEX : Base → ℕ
  | .A => 0
  | .C => 1
  | .G => 2
  | .T => 3

/-- Python `insert_requality(insert_qual_list)`: starts `iq = 1`, multiplies in
`1 - 10 ** (-q / 10)` for each quality `q`, and returns
`-10 * math.log(1 - iq, 10)`. -/
noncomputable def insert_requality (l : List ℝ) : ℝ :=
  -10 * Real.logb 10
    (1 - l.foldl (fun iq q => iq * (1 - (10 : ℝ) ^ (-q / 10))) 1)

/-- Modelled from the spec, for comparison with `insert_requality`: §4.3 words
the result as "the combined probability of error across the whole run as
`1 - Π(1 - p_i)`" followed by "the Phred-scaled combined value
`-10 * log10(1 - combined)`". -/
noncomputable def merge_quality_spec (l : List ℝ) : ℝ :=
  let combined : ℝ := 1 - (l.map (fun q => 1 - (10 : ℝ) ^ (-q / 10))).prod;
  -10 * Real.logb 10 (1 - combined)

/-- Python `insert_seq_index(insert_seq_list)`: the base-4 integer
`int('1' + digits, 4)` capped by `min` at `9223372036854775807`. -/
def insert_seq_index (l : List Base) : ℕ :=
  min 9223372036854775807
    (l.foldl (fun acc b => 4 * acc + _BASE_INDEX b) 1)

/-- The base-4 value of a digit list alone (no leading `1`), used to reason
about `insert_seq_index`. -/
def baseVal (l : List Base) : ℕ :=
  l.foldl (fun acc b => 4 * acc + _BASE_INDEX b) 0

/-- The `Region` class of `region.py` (field `end` is spelled `end_` because
`end` is a Lean keyword). -/
structure Region where
  chrom : String
  start : ℤ
  end_ : ℤ
  strand : Char
  info : String := ""
  offset : ℤ := 0
deriving Repr

/-- The grow branch of `Region.resize` (taken when `window > end - start`),
branch for branch: left clamp, right clamp (Python's `limit and cond` makes
the right-clamp test require `limit` truthy), even delta, odd delta with
`offset` set, odd delta with `offset` clear. -/
def Region.grow_to_width (r : Region) (window : ℤ) (limit : Option ℤ) :
    Region :=
  let flank : ℤ := (window - (r.end_ - r.start)) / 2
  if r.start - flank - r.offset ≤ 0 then
    { r with start := 0, end_ := window }
  else if truthy limit ∧ r.end_ + flank + 1 - r.offset ≥ limit.getD 0 then
    { r with start := limit.getD 0 - window, end_ := limit.getD 0 }
  else if (window - (r.end_ - r.start)) % 2 = 0 then
    { r with start := r.start - flank, end_ := r.end_ + flank }
  else if r.offset ≠ 0 then
    { r with start := r.start - flank - 1, end_ := r.end_ + flank, offset := 0 }
  else
    { r with start := r.start - flank, end_ := r.end_ + flank + 1, offset := 1 }

/-- The shrink step of `Region.resize` (taken when `window < end - start`):
recenter to the single base at `mid = (start + end - offset) // 2` and
recompute `offset` from the parity of the new `end - start - offset`. -/
def Region.shrink_to_midpoint (r : Region) : Region :=
  let mid : ℤ := (r.start + r.end_ - r.offset) / 2
  let r1 : Region := { r with start := mid, end_ := mid + 1 }
  if (r1.end_ - r1.start - r1.offset) % 2 = 0 then { r1 with offset := 1 }
  else { r1 with offset := 0 }

/-- Python `Region.resize(window, limit)`, with an explicit recursion `fuel` because
the Python method calls itself in the shrink branch. Returns `none` when the
fuel is exhausted before the recursion finishes. -/
def Region.resize (fuel : ℕ) (r : Region) (window : ℤ) (limit : Option ℤ) :
    Option Region :=
  match fuel with
  | 0 => none
  | fuel + 1 =>
    if window > r.end_ - r.start then
      some (r.grow_to_width window limit)
    else if window < r.end_ - r.start then
      Region.resize fuel (r.shrink_to_midpoint) window limit
    else
      some r

/-- A read, as the encoder sees it through the alignment-source collaborator
(pysam): strand flag, `get_aligned_pairs()` as a list of
`(read position | None, reference position | None)`, `query_sequence` indexed
by read position, and `query_qualities` indexed by read position. -/
structure Read where
  query_name : String
  is_reverse : Bool
  pairs : List (Option ℤ × Option ℤ)
  query_sequence : ℤ → Base
  query_qualities : ℤ → ℝ

/-- Numpy index semantics for a length-`w` axis: a negative index counts from
the end of the axis. -/
def npIdx (w : ℕ) (i : ℤ) : ℤ := if i < 0 then i + w else i

/-- Write `v` at `[i, c]` of a `(w, 6)` int array. -/
def npSet2 (w : ℕ) (f : ℤ → ℤ → ℤ) (i c v : ℤ) : ℤ → ℤ → ℤ :=
  fun i' c' => if i' = npIdx w i ∧ c' = c then v else f i' c'

/-- Write `v` at `[i]` of a length-`w` float array. -/
def npSet1 (w : ℕ) (f : ℤ → ℝ) (i : ℤ) (v : ℝ) : ℤ → ℝ :=
  fun i' => if i' = npIdx w i then v else f i'

/-- The encoder's loop state in `get_read_alignment`: the two output arrays,
the `in_range` flag and the pending insertion run; `writes` additionally
records the raw (pre-wrap) row index of every array write, for the
bounds-safety claim. -/
structure EncState where
  range_one_hot : ℤ → ℤ → ℤ
  range_quality : ℤ → ℝ
  in_range : Bool
  insert_seq_list : List Base
  insert_qual_list : List ℝ
  writes : List ℤ

/-- Arrays `np.zeros((ali_window, 6))`, `np.zeros(ali_window)`, `in_range = False`,
empty insertion run. -/
def initState : EncState :=
  ⟨fun _ _ => 0, fun _ => 0, false, [], [], []⟩

/-- The body of `if in_range:` in `get_read_alignment`, for one aligned pair
`(read_index, ref_index)`: Python tests `if read_index:` / `if ref_index:`
(truthiness, so `None` and `0` both take the negative branch), then encodes a
match, insertion or deletion, folding a pending insertion run
strand-asymmetrically. -/
noncomputable def processPair (read : Read) (region : Region) (w : ℕ)
    (st : EncState) (read_index ref_index : Option ℤ) : EncState :=
  if truthy read_index then
    if truthy ref_index then
      -- match encoding
      if st.insert_seq_list ≠ [] then
        if region.strand = '+' then
          { st with
            range_one_hot := npSet2 w st.range_one_hot
              (ref_index.getD 0 - region.start - 1) 5
              (insert_seq_index st.insert_seq_list : ℤ),
            range_quality := npSet1 w st.range_quality
              (ref_index.getD 0 - region.start - 1)
              (insert_requality
                (st.range_quality (npIdx w (ref_index.getD 0 - region.start - 1))
                  :: st.insert_qual_list)),
            insert_seq_list := [], insert_qual_list := [],
            writes := (ref_index.getD 0 - region.start - 1) ::
              (ref_index.getD 0 - region.start - 1) :: st.writes }
        else
          { st with
            range_one_hot := npSet2 w
              (npSet2 w st.range_one_hot (ref_index.getD 0 - region.start) 5
                (insert_seq_index st.insert_seq_list : ℤ))
              (ref_index.getD 0 - region.start)
              (_BASE_INTS (read.query_sequence (read_index.getD 0))) 1,
            range_quality := npSet1 w st.range_quality
              (ref_index.getD 0 - region.start)
              (insert_requality (st.insert_qual_list ++
                [read.query_qualities (read_index.getD 0)])),
            insert_seq_list := [], insert_qual_list := [],
            writes := (ref_index.getD 0 - region.start) ::
              (ref_index.getD 0 - region.start) ::
              (ref_index.getD 0 - region.start) :: st.writes }
      else
        { st with
          range_one_hot := npSet2 w st.range_one_hot
            (ref_index.getD 0 - region.start)
            (_BASE_INTS (read.query_sequence (read_index.getD 0))) 1,
          range_quality := npSet1 w st.range_quality
            (ref_index.getD 0 - region.start)
            (read.query_qualities (read_index.getD 0)),
          writes := (ref_index.getD 0 - region.start) ::
            (ref_index.getD 0 - region.start) :: st.writes }
    else
      -- insertion encoding
      if st.insert_seq_list ≠ [] ∧ st.insert_qual_list ≠ [] then
        { st with
          insert_seq_list := st.insert_seq_list ++
            [read.query_sequence (read_index.getD 0)],
          insert_qual_list := st.insert_qual_list ++
            [read.query_qualities (read_index.getD 0)] }
      else
        { st with
          insert_seq_list := [read.query_sequence (read_index.getD 0)],
          insert_qual_list := [read.query_qualities (read_index.getD 0)] }
  else if truthy ref_index then
    -- deletion encoding
    if st.insert_seq_list ≠ [] then
      if region.strand = '+' then
        { st with
          range_one_hot := npSet2 w st.range_one_hot
            (ref_index.getD 0 - region.start - 1) 5
            (insert_seq_index st.insert_seq_list : ℤ),
          range_quality := npSet1 w st.range_quality
            (ref_index.getD 0 - region.start - 1)
            (insert_requality
              (st.range_quality (npIdx w (ref_index.getD 0 - region.start - 1))
                :: st.insert_qual_list)),
          insert_seq_list := [], insert_qual_list := [],
          writes := (ref_index.getD 0 - region.start - 1) ::
            (ref_index.getD 0 - region.start - 1) :: st.writes }
      else
        { st with
          range_one_hot := npSet2 w
            (npSet2 w st.range_one_hot (ref_index.getD 0 - region.start) 5
              (insert_seq_index st.insert_seq_list : ℤ))
            (ref_index.getD 0 - region.start) 4 1,
          insert_seq_list := [], insert_qual_list := [],
          writes := (ref_index.getD 0 - region.start) ::
            (ref_index.getD 0 - region.start) :: st.writes }
    else
      { st with
        range_one_hot := npSet2 w st.range_one_hot
          (ref_index.getD 0 - region.start) 4 1,
        writes := (ref_index.getD 0 - region.start) :: st.writes }
  else
    st

/-- The scan loop of `get_read_alignment` over the aligned pairs, including
the `in_range` bookkeeping at the top of the loop body: `in_range` becomes
true when a reference position equals `region.start`; a truthy reference
position at or beyond `region.end` breaks out of the loop. -/
noncomputable def scanPairs (read : Read) (region : Region) (w : ℕ) :
    EncState → List (Option ℤ × Option ℤ) → EncState
  | st, [] => st
  | st, (read_index, ref_index) :: rest =>
    if optEqInt ref_index region.start then
      scanPairs read region w
        (processPair read region w { st with in_range := true } read_index
          ref_index) rest
    else if truthy ref_index ∧ ref_index.getD 0 ≥ region.end_ then
      st
    else
      scanPairs read region w
        (if st.in_range then processPair read region w st read_index ref_index
         else st) rest

/-- The loop state after scanning all of a read's aligned pairs. -/
noncomputable def finalState (read : Read) (region : Region) (w : ℕ) :
    EncState :=
  scanPairs read region w initState read.pairs

/-- Python `range_one_hot.any()`: some entry of the `(w, 6)` array is nonzero. -/
def anyHot (w : ℕ) (f : ℤ → ℤ → ℤ) : Bool :=
  (List.range w).any fun i => (List.range 6).any fun c => f (i : ℤ) (c : ℤ) ≠ 0

/-- The encoder's per-read output record
`{'read_id': ..., 'alignment': ..., 'quality': ...}`. -/
structure ReadFeatures where
  read_id : String
  alignment : ℤ → ℤ → ℤ
  quality : ℤ → ℝ

/-- Python `get_read_alignment(read, region, ali_window)`: `none` models the empty
dict `{}` returned on strand mismatch or when the one-hot array has no set
bits. -/
noncomputable def get_read_alignment (read : Read) (region : Region)
    (ali_window : ℕ) : Option ReadFeatures :=
  if (if read.is_reverse then '-' else '+') ≠ region.strand then none
  else
    if anyHot ali_window (finalState read region ali_window).range_one_hot then
      some ⟨read.query_name,
        (finalState read region ali_window).range_one_hot,
        (finalState read region ali_window).range_quality⟩
    else none

/-- Filesystem effects visible to `get_region_alignment`, keyed by the region
string: the `.ali.done` marker, the `.reads_alignment.npy` array and the
`.reads_quality.npy` array. -/
structure FS where
  done : String → Bool
  alignments : String → Option (List (ℤ → ℤ → ℤ))
  qualities : String → Option (List (ℤ → ℝ))

/-- Observable actions of one `get_region_alignment` run, in order. -/
inductive Event where
  | openSource
  | fetchRead
  | saveAlignment
  | saveQuality
  | touchMarker
deriving DecidableEq, Repr

/-- Python `get_region_alignment(region_args)`: skip when the marker exists and
overwrite was not requested; otherwise open the source, encode every fetched
read, keep the non-empty results, save both arrays and touch the marker.
`reads` is the list the alignment source yields for
`fetch(region.chrom, region.start, region.end)`. -/
noncomputable def get_region_alignment (fs : FS) (region : Region)
    (region_string : String) (reads : List Read) (ali_window : ℕ)
    (overwrite : Bool) : FS × List Event :=
  if ¬overwrite ∧ fs.done region_string then (fs, [])
  else
    ({ done := fun s => if s = region_string then true else fs.done s,
       alignments := fun s =>
         if s = region_string then
           some ((reads.filterMap fun read =>
             get_read_alignment read region ali_window).map (·.alignment))
         else fs.alignments s,
       qualities := fun s =>
         if s = region_string then
           some ((reads.filterMap fun read =>
             get_read_alignment read region ali_window).map (·.quality))
         else fs.qualities s },
     Event.openSource :: (reads.map fun _ => Event.fetchRead) ++
       [Event.saveAlignment, Event.saveQuality, Event.touchMarker])

theorem Region.resize_succ_grow (fuel : ℕ) (r : Region) (window : ℤ)
    (limit : Option ℤ) (h : window > r.end_ - r.start) :
    Region.resize (fuel + 1) r window limit =
      some (r.grow_to_width window limit) := by
  simp only [Region.resize, h, if_pos]

theorem Region.resize_succ_noop (fuel : ℕ) (r : Region) (window : ℤ)
    (limit : Option ℤ) (h : window = r.end_ - r.start) :
    Region.resize (fuel + 1) r window limit = some r := by
  simp only [Region.resize]
  rw [if_neg (by omega), if_neg (by omega)]

theorem Region.resize_succ_shrink (fuel : ℕ) (r : Region) (window : ℤ)
    (limit : Option ℤ) (h : window < r.end_ - r.start) :
    Region.resize (fuel + 1) r window limit =
      Region.resize fuel (r.shrink_to_midpoint) window limit := by
  simp only [Region.resize]
  rw [if_neg (by omega), if_pos h]

/-- Function `grow_to_width` yields width exactly `window` in all five branches. -/
theorem Region.grow_to_width_width (r : Region) (window : ℤ)
    (limit : Option ℤ) :
    (r.grow_to_width window limit).end_ -
      (r.grow_to_width window limit).start = window := by
  simp only [Region.grow_to_width]
  split_ifs
  · show window - 0 = window; omega
  · show limit.getD 0 - (limit.getD 0 - window) = window; omega
  · show r.end_ + (window - (r.end_ - r.start)) / 2 -
      (r.start - (window - (r.end_ - r.start)) / 2) = window
    omega
  · show r.end_ + (window - (r.end_ - r.start)) / 2 -
      (r.start - (window - (r.end_ - r.start)) / 2 - 1) = window
    omega
  · show r.end_ + (window - (r.end_ - r.start)) / 2 + 1 -
      (r.start - (window - (r.end_ - r.start)) / 2) = window
    omega

/-- The shrink step always produces a region of width exactly 1. -/
theorem Region.shrink_to_midpoint_width (r : Region) :
    (r.shrink_to_midpoint).end_ - (r.shrink_to_midpoint).start = 1 := by
  simp only [Region.shrink_to_midpoint]
  split_ifs
  · show (r.start + r.end_ - r.offset) / 2 + 1 -
      (r.start + r.end_ - r.offset) / 2 = 1
    omega
  · show (r.start + r.end_ - r.offset) / 2 + 1 -
      (r.start + r.end_ - r.offset) / 2 = 1
    omega

/-- One non-shrinking step of `resize` (width already `≤ window`) succeeds with
any nonzero fuel and produces width exactly `window`. -/
theorem Region.resize_grow_width (fuel : ℕ) (r : Region) (window : ℤ)
    (limit : Option ℤ) (hle : r.end_ - r.start ≤ window) :
    ∃ r' : Region, Region.resize (fuel + 1) r window limit = some r' ∧
      r'.end_ - r'.start = window := by
  rcases lt_or_eq_of_le hle with hlt | heq
  · exact ⟨_, Region.resize_succ_grow fuel r window limit hlt,
      Region.grow_to_width_width r window limit⟩
  · exact ⟨r, Region.resize_succ_noop fuel r window limit heq.symm, heq⟩

/-- A non-shrinking `resize` call ignores the amount of fuel beyond 1. -/
theorem Region.resize_succ_of_le (fuel : ℕ) (r : Region) (window : ℤ)
    (limit : Option ℤ) (hle : r.end_ - r.start ≤ window) :
    Region.resize (fuel + 1) r window limit =
      Region.resize 1 r window limit := by
  rcases lt_or_eq_of_le hle with hlt | heq
  · rw [Region.resize_succ_grow fuel r window limit hlt,
      Region.resize_succ_grow 0 r window limit hlt]
  · rw [Region.resize_succ_noop fuel r window limit heq.symm,
      Region.resize_succ_noop 0 r window limit heq.symm]

/-- With fuel at least 2, `resize` to any window `≥ 1` succeeds and produces
width exactly `window`. -/
theorem Region.resize_exists (fuel : ℕ) (r : Region) (window : ℤ)
    (limit : Option ℤ) (hw : 1 ≤ window) :
    ∃ r' : Region, Region.resize (fuel + 2) r window limit = some r' ∧
      r'.end_ - r'.start = window := by
  rcases le_or_lt (r.end_ - r.start) window with hle | hgt
  · exact Region.resize_grow_width (fuel + 1) r window limit hle
  · rw [Region.resize_succ_shrink (fuel + 1) r window limit hgt]
    apply Region.resize_grow_width fuel
    have h1 := Region.shrink_to_midpoint_width r
    omega

/-- C4: for every valid region (`start ≤ end`), every window `w ≥ 1` and any
limit, `Region.resize(w, limit)` yields a region whose width `end - start`
equals `w`, through the clamped branches included; hence re-resizing to the
original width always restores that width. -/
theorem resize_width_eq_window (fuel : ℕ) (r : Region) (window : ℤ)
    (limit : Option ℤ) (_hvalid : r.start ≤ r.end_) (hw : 1 ≤ window) :
    ∃ r' : Region, Region.resize (fuel + 2) r window limit = some r' ∧
      r'.end_ - r'.start = window :=
  Region.resize_exists fuel r window limit hw

/-- Witness for C4: a concrete region of width 10 resized to window 25. -/
theorem resize_width_eq_window_witness :
    ∃ r' : Region,
      Region.resize 2 ⟨"chr1", 100, 110, '+', "", 0⟩ 25 (some 1000) = some r' ∧
        r'.end_ - r'.start = 25 :=
  resize_width_eq_window 0 ⟨"chr1", 100, 110, '+', "", 0⟩ 25 (some 1000)
    (by norm_num) (by norm_num)

/-- C10: for every valid region and window `w ≥ 1` (any limit),
`Region.resize(w, limit)` terminates: fuel 2 suffices and more fuel changes
nothing, and in the shrink case the region is first reduced to width exactly
1, after which the single recursive call takes the grow or no-op path and
succeeds without further recursion. -/
theorem resize_terminates (r : Region) (window : ℤ) (limit : Option ℤ)
    (_hvalid : r.start ≤ r.end_) (hw : 1 ≤ window) :
    (∃ r' : Region, Region.resize 2 r window limit = some r') ∧
    (∀ fuel : ℕ, 2 ≤ fuel →
      Region.resize fuel r window limit = Region.resize 2 r window limit) ∧
    (window < r.end_ - r.start →
      (r.shrink_to_midpoint).end_ - (r.shrink_to_midpoint).start = 1 ∧
      Region.resize 2 r window limit =
        Region.resize 1 (r.shrink_to_midpoint) window limit ∧
      ∃ r' : Region,
        Region.resize 1 (r.shrink_to_midpoint) window limit = some r') := by
  have hshrink := Region.shrink_to_midpoint_width r
  refine ⟨?_, ?_, ?_⟩
  · obtain ⟨r', h, _⟩ := Region.resize_exists 0 r window limit hw
    exact ⟨r', h⟩
  · intro fuel hfuel
    obtain ⟨g, rfl⟩ : ∃ g, fuel = g + 2 := ⟨fuel - 2, by omega⟩
    rcases le_or_lt (r.end_ - r.start) window with hle | hgt
    · rw [Region.resize_succ_of_le (g + 1) r window limit hle,
        Region.resize_succ_of_le 1 r window limit hle]
    · rw [Region.resize_succ_shrink (g + 1) r window limit hgt,
        Region.resize_succ_shrink 1 r window limit hgt,
        Region.resize_succ_of_le g (r.shrink_to_midpoint) window limit
          (by omega)]
  · intro hgt
    refine ⟨hshrink, Region.resize_succ_shrink 1 r window limit hgt, ?_⟩
    obtain ⟨r', h, _⟩ :=
      Region.resize_grow_width 0 (r.shrink_to_midpoint) window limit (by omega)
    exact ⟨r', h⟩

/-- Witness for C10: a concrete region of width 10 resized down to window 3
(the shrink-then-regrow path). -/
theorem resize_terminates_witness :
    (∃ r' : Region,
      Region.resize 2 ⟨"chr1", 100, 110, '+', "", 0⟩ 3 none = some r') ∧
    (∀ fuel : ℕ, 2 ≤ fuel →
      Region.resize fuel ⟨"chr1", 100, 110, '+', "", 0⟩ 3 none =
        Region.resize 2 ⟨"chr1", 100, 110, '+', "", 0⟩ 3 none) ∧
    ((3 : ℤ) < (⟨"chr1", 100, 110, '+', "", 0⟩ : Region).end_ -
        (⟨"chr1", 100, 110, '+', "", 0⟩ : Region).start →
      ((⟨"chr1", 100, 110, '+', "", 0⟩ : Region).shrink_to_midpoint).end_ -
        ((⟨"chr1", 100, 110, '+', "", 0⟩ : Region).shrink_to_midpoint).start
          = 1 ∧
      Region.resize 2 ⟨"chr1", 100, 110, '+', "", 0⟩ 3 none =
        Region.resize 1
          ((⟨"chr1", 100, 110, '+', "", 0⟩ : Region).shrink_to_midpoint) 3
          none ∧
      ∃ r' : Region,
        Region.resize 1
          ((⟨"chr1", 100, 110, '+', "", 0⟩ : Region).shrink_to_midpoint) 3
          none = some r') :=
  resize_terminates ⟨"chr1", 100, 110, '+', "", 0⟩ 3 none (by norm_num)
    (by norm_num)

theorem foldl_base (l : List Base) (a : ℕ) :
    l.foldl (fun acc b => 4 * acc + _BASE_INDEX b) a =
      a * 4 ^ l.length + baseVal l := by
  induction l generalizing a with
  | nil => simp [baseVal]
  | cons b t ih =>
    simp only [List.foldl_cons, List.length_cons, baseVal] at *
    rw [ih (4 * a + _BASE_INDEX b), ih (4 * 0 + _BASE_INDEX b)]
    ring

theorem baseVal_cons (b : Base) (t : List Base) :
    baseVal (b :: t) = _BASE_INDEX b * 4 ^ t.length + baseVal t := by
  show List.foldl _ (4 * 0 + _BASE_INDEX b) t = _
  rw [foldl_base]
  ring_nf

theorem baseVal_lt (l : List Base) : baseVal l < 4 ^ l.length := by
  induction l with
  | nil => simp [baseVal]
  | cons b t ih =>
    rw [baseVal_cons, List.length_cons, pow_succ]
    have hd : _BASE_INDEX b ≤ 3 := by cases b <;> simp [_BASE_INDEX]
    have hm : _BASE_INDEX b * 4 ^ t.length ≤ 3 * 4 ^ t.length :=
      Nat.mul_le_mul_right _ hd
    omega

theorem baseVal_inj (l1 : List Base) : ∀ l2 : List Base,
    l1.length = l2.length → baseVal l1 = baseVal l2 → l1 = l2 := by
  induction l1 with
  | nil =>
    intro l2 hlen _
    cases l2 with
    | nil => rfl
    | cons b t => simp at hlen
  | cons b1 t1 ih =>
    intro l2 hlen hval
    cases l2 with
    | nil => simp at hlen
    | cons b2 t2 =>
      have hlen' : t1.length = t2.length := by simpa using hlen
      rw [baseVal_cons, baseVal_cons, hlen'] at hval
      have hv1 := baseVal_lt t1
      have hv2 := baseVal_lt t2
      rw [hlen'] at hv1
      cases b1 <;> cases b2 <;>
        simp only [_BASE_INDEX] at hval <;>
        first
          | (exfalso; omega)
          | (rw [ih t2 hlen' (by omega)])

theorem insert_seq_index_raw (l : List Base) :
    insert_seq_index l = min 9223372036854775807 (4 ^ l.length + baseVal l) := by
  unfold insert_seq_index
  rw [foldl_base, one_mul]

theorem insert_seq_index_below (l : List Base) (h : l.length ≤ 31) :
    insert_seq_index l = 4 ^ l.length + baseVal l := by
  rw [insert_seq_index_raw]
  apply min_eq_right
  have h1 : (4 : ℕ) ^ l.length ≤ 4 ^ 31 := Nat.pow_le_pow_right (by norm_num) h
  have h2 : (4 : ℕ) ^ 31 = 4611686018427387904 := by norm_num
  have h3 := baseVal_lt l
  omega

/-- C6: `insert_seq_index` packs a base run as the base-4 integer with a
leading `1` digit, saturating at `9223372036854775807`; it is injective on
pairs of distinct runs of equal length below the overflow threshold (length
`≤ 31`), and runs at/above the threshold (length `≥ 32`) map to the
saturation ceiling. -/
theorem insert_seq_index_inj_and_saturates :
    (∀ l1 l2 : List Base, l1.length = l2.length → l1.length ≤ 31 →
      l1 ≠ l2 → insert_seq_index l1 ≠ insert_seq_index l2) ∧
    (∀ l : List Base, 32 ≤ l.length →
      insert_seq_index l = 9223372036854775807) := by
  constructor
  · intro l1 l2 hlen h31 hne hidx
    apply hne
    rw [insert_seq_index_below l1 h31, insert_seq_index_below l2 (hlen ▸ h31),
      hlen] at hidx
    exact baseVal_inj l1 l2 hlen (by omega)
  · intro l hl
    rw [insert_seq_index_raw]
    apply min_eq_left
    have h1 : (4 : ℕ) ^ 32 ≤ 4 ^ l.length := Nat.pow_le_pow_right (by norm_num) hl
    have h2 : (4 : ℕ) ^ 32 = 18446744073709551616 := by norm_num
    omega

/-- Witness for C6: the runs `[C]` and `[G]` pack differently, and a run of
32 `A`s hits the saturation ceiling. -/
theorem insert_seq_index_inj_and_saturates_witness :
    insert_seq_index [Base.C] ≠ insert_seq_index [Base.G] ∧
      insert_seq_index (List.replicate 32 Base.A) = 9223372036854775807 :=
  ⟨insert_seq_index_inj_and_saturates.1 [Base.C] [Base.G] rfl (by decide)
      (by decide),
    insert_seq_index_inj_and_saturates.2 (List.replicate 32 Base.A)
      (by simp)⟩

/-- C5: merging a single Phred quality returns it unchanged:
`insert_requality [q] = q` (exactly, over the real-number semantics). -/
theorem insert_requality_single (q : ℝ) (_hq : 0 ≤ q) :
    insert_requality [q] = q := by
  unfold insert_requality
  simp only [List.foldl_cons, List.foldl_nil, one_mul]
  have h1 : (1 : ℝ) - (1 - (10 : ℝ) ^ (-q / 10)) = (10 : ℝ) ^ (-q / 10) := by
    ring
  rw [h1, Real.logb_rpow (by norm_num) (by norm_num)]
  ring

/-- Witness for C5: a single quality of 30 merges to 30. -/
theorem insert_requality_single_witness : insert_requality [30] = 30 :=
  insert_requality_single 30 (by norm_num)

/-- Counterexample for C3: on the one-element list `[10]` the function does
not return the value `-10 * log10(1 - combined)` that the claim (following
§4.3 of the spec) ascribes to it; `insert_requality [10] = 10` while the
claimed formula evaluates to `-10 * log10(9/10) ≈ 0.458`. -/
theorem insert_requality_formula_counterexample :
    insert_requality [10] ≠ merge_quality_spec [10] := by
  have hne : (-(10 : ℝ) / 10) = (-1 : ℝ) := by norm_num
  have hval : insert_requality [10] = 10 := by
    unfold insert_requality
    simp only [List.foldl_cons, List.foldl_nil, one_mul]
    have h1 : (1 : ℝ) - (1 - (10 : ℝ) ^ (-(10 : ℝ) / 10)) =
        (10 : ℝ) ^ (-(10 : ℝ) / 10) := by ring
    rw [h1, Real.logb_rpow (by norm_num) (by norm_num)]
    norm_num
  have hspec : merge_quality_spec [10] = -10 * Real.logb 10 (9 / 10) := by
    unfold merge_quality_spec
    simp only [List.map_cons, List.map_nil, List.prod_cons, List.prod_nil,
      mul_one]
    rw [hne, Real.rpow_neg_one]
    norm_num
  rw [hval, hspec]
  intro h
  have hlogb : Real.logb 10 (9 / 10) = -1 := by linarith
  have h2 := Real.rpow_logb (by norm_num : (0 : ℝ) < 10)
    (by norm_num : (10 : ℝ) ≠ 1) (by norm_num : (0 : ℝ) < 9 / 10)
  rw [hlogb, Real.rpow_neg_one] at h2
  norm_num at h2

/-- C3 (amended): `insert_requality` returns the Phred scaling of the
combined error probability itself, `-10 * log10(combined)` with
`combined = 1 - Π(1 - 10^(-q_i/10))` — not `-10 * log10(1 - combined)`. -/
theorem insert_requality_formula (l : List ℝ) (_hl : l ≠ []) :
    insert_requality l =
      -10 * Real.logb 10
        (1 - (l.map (fun q => 1 - (10 : ℝ) ^ (-q / 10))).prod) := by
  unfold insert_requality
  rw [List.prod_eq_foldl, List.foldl_map]

/-- Witness for C3's amended theorem at the list `[20, 30]`. -/
theorem insert_requality_formula_witness :
    insert_requality [20, 30] =
      -10 * Real.logb 10
        (1 - (([20, 30] : List ℝ).map
          (fun q => 1 - (10 : ℝ) ^ (-q / 10))).prod) :=
  insert_requality_formula [20, 30] (by simp)

/-- Function `processPair` never changes the `in_range` flag. -/
theorem processPair_in_range (read : Read) (region : Region) (w : ℕ)
    (st : EncState) (ri fi : Option ℤ) :
    (processPair read region w st ri fi).in_range = st.in_range := by
  unfold processPair
  split_ifs <;> rfl

/-- Every write row `processPair` adds is the current row
`ref_index - start`, or — only when an insertion run was pending — the
preceding row `ref_index - start - 1`; both require a truthy `ref_index`. -/
theorem processPair_writes (read : Read) (region : Region) (w : ℕ)
    (st : EncState) (ri fi : Option ℤ) :
    ∀ i ∈ (processPair read region w st ri fi).writes,
      i ∈ st.writes ∨
        (truthy fi = true ∧
          (i = fi.getD 0 - region.start ∨
            (st.insert_seq_list ≠ [] ∧
              i = fi.getD 0 - region.start - 1))) := by
  unfold processPair
  split_ifs with h1 h2 h3 h4 h5 h6 h7 h8 <;> intro i hi <;>
    (try simp only [List.mem_cons] at hi) <;> tauto

/-- C1 counterexample: a forward-strand read matching at rows 0 and 1 of the
region with a one-base insertion in between. The fold into row 0 happens
(channel 5 holds the packed code of the run `[C]`), but the match at row 1
that triggered it is not recorded: its base channel (`G`, channel 2) stays 0,
refuting "still records the current event itself". -/
theorem forward_fold_drops_match_counterexample :
    (finalState
        ⟨"r1", false, [(some 1, some 5), (some 2, none), (some 3, some 6)],
          fun i => if i = 1 then Base.A else if i = 2 then Base.C else Base.G,
          fun _ => 30⟩
        ⟨"chr1", 5, 7, '+', "", 0⟩ 2).range_one_hot 0 5 =
      (insert_seq_index [Base.C] : ℤ) ∧
    (finalState
        ⟨"r1", false, [(some 1, some 5), (some 2, none), (some 3, some 6)],
          fun i => if i = 1 then Base.A else if i = 2 then Base.C else Base.G,
          fun _ => 30⟩
        ⟨"chr1", 5, 7, '+', "", 0⟩ 2).range_one_hot 0 0 = 1 ∧
    (finalState
        ⟨"r1", false, [(some 1, some 5), (some 2, none), (some 3, some 6)],
          fun i => if i = 1 then Base.A else if i = 2 then Base.C else Base.G,
          fun _ => 30⟩
        ⟨"chr1", 5, 7, '+', "", 0⟩ 2).range_one_hot 1
          (_BASE_INTS Base.G) = 0 := by
  refine ⟨by decide, by decide, by decide⟩

/-- C1 (amended): on a forward-strand region, when a match or deletion event
arrives while an insertion run is pending, the encoder only folds the run —
channel 5 at row `row - 1` gets the packed code and the run's qualities merge
into the existing quality at row `row - 1` — and does not record the current
event itself: every channel at the current row, and the quality at the
current row, are left unchanged (in particular the matched base's one-hot /
the deletion channel 4 are not set). -/
theorem processPair_forward_fold_only (read : Read) (region : Region) (w : ℕ)
    (st : EncState) (read_index ref_index : Option ℤ) (row : ℤ)
    (hplus : region.strand = '+')
    (hpend : st.insert_seq_list ≠ [])
    (hfi : truthy ref_index = true)
    (hrow : row = ref_index.getD 0 - region.start)
    (hrow1 : 1 ≤ row) :
    (processPair read region w st read_index ref_index).range_one_hot
        (row - 1) 5 = (insert_seq_index st.insert_seq_list : ℤ) ∧
    (processPair read region w st read_index ref_index).range_quality
        (row - 1) =
      insert_requality (st.range_quality (row - 1) :: st.insert_qual_list) ∧
    (∀ c : ℤ,
      (processPair read region w st read_index ref_index).range_one_hot row c =
        st.range_one_hot row c) ∧
    (processPair read region w st read_index ref_index).range_quality row =
      st.range_quality row ∧
    (processPair read region w st read_index ref_index).insert_seq_list =
      [] := by
  subst hrow
  have hneg : ¬(ref_index.getD 0 - region.start - 1 < 0) := by omega
  have hne : ref_index.getD 0 - region.start ≠
      ref_index.getD 0 - region.start - 1 := by omega
  unfold processPair
  rcases htr : truthy read_index with _ | _
  · rw [if_neg (by simp [htr]), if_pos (by simp [hfi]), if_pos hpend,
      if_pos hplus]
    refine ⟨?_, ?_, ?_, ?_, rfl⟩
    · simp [npSet2, npIdx, hneg]
    · simp [npSet1, npIdx, hneg]
    · intro c
      simp [npSet2, npIdx, hneg, hne]
    · simp [npSet1, npIdx, hneg, hne]
  · rw [if_pos (by simp [htr]), if_pos (by simp [hfi]), if_pos hpend,
      if_pos hplus]
    refine ⟨?_, ?_, ?_, ?_, rfl⟩
    · simp [npSet2, npIdx, hneg]
    · simp [npSet1, npIdx, hneg]
    · intro c
      simp [npSet2, npIdx, hneg, hne]
    · simp [npSet1, npIdx, hneg, hne]

/-- Witness for C1's amended theorem: a concrete pending run `[C]` of quality
30 folded at current row 1 (reference position 6 of a region starting at 5). -/
theorem processPair_forward_fold_only_witness :
    (processPair ⟨"r1", false, [], fun _ => Base.G, fun _ => 30⟩
        ⟨"chr1", 5, 7, '+', "", 0⟩ 2
        ⟨fun _ _ => 0, fun _ => 0, true, [Base.C], [30], []⟩
        (some 3) (some 6)).range_one_hot 0 5 =
      (insert_seq_index [Base.C] : ℤ) ∧
    (processPair ⟨"r1", false, [], fun _ => Base.G, fun _ => 30⟩
        ⟨"chr1", 5, 7, '+', "", 0⟩ 2
        ⟨fun _ _ => 0, fun _ => 0, true, [Base.C], [30], []⟩
        (some 3) (some 6)).range_quality 0 =
      insert_requality ((0 : ℝ) :: [(30 : ℝ)]) ∧
    (∀ c : ℤ,
      (processPair ⟨"r1", false, [], fun _ => Base.G, fun _ => 30⟩
          ⟨"chr1", 5, 7, '+', "", 0⟩ 2
          ⟨fun _ _ => 0, fun _ => 0, true, [Base.C], [30], []⟩
          (some 3) (some 6)).range_one_hot 1 c = 0) ∧
    (processPair ⟨"r1", false, [], fun _ => Base.G, fun _ => 30⟩
        ⟨"chr1", 5, 7, '+', "", 0⟩ 2
        ⟨fun _ _ => 0, fun _ => 0, true, [Base.C], [30], []⟩
        (some 3) (some 6)).range_quality 1 = 0 ∧
    (processPair ⟨"r1", false, [], fun _ => Base.G, fun _ => 30⟩
        ⟨"chr1", 5, 7, '+', "", 0⟩ 2
        ⟨fun _ _ => 0, fun _ => 0, true, [Base.C], [30], []⟩
        (some 3) (some 6)).insert_seq_list = [] :=
  processPair_forward_fold_only
    ⟨"r1", false, [], fun _ => Base.G, fun _ => 30⟩
    ⟨"chr1", 5, 7, '+', "", 0⟩ 2
    ⟨fun _ _ => 0, fun _ => 0, true, [Base.C], [30], []⟩
    (some 3) (some 6) 1 rfl (by decide) (by decide) (by decide) (by decide)

/-- C2 (code bug): the classification of an aligned pair is by Python
truthiness, not by presence/absence. At the failing input — the pair
`(read_position 0, reference_position 5)` on a region starting at 5, both
positions present — the encoder sets the deletion channel 4 instead of
the matched base's one-hot channel. -/
theorem aligned_pair_zero_truthiness_bug :
    (finalState ⟨"r1", false, [(some 0, some 5)], fun _ => Base.A,
        fun _ => 30⟩ ⟨"chr1", 5, 6, '+', "", 0⟩ 1).range_one_hot 0 4 = 1 ∧
    (finalState ⟨"r1", false, [(some 0, some 5)], fun _ => Base.A,
        fun _ => 30⟩ ⟨"chr1", 5, 6, '+', "", 0⟩ 1).range_one_hot 0
          (_BASE_INTS Base.A) = 0 :=
  ⟨by decide, by decide⟩

/-- Invariant induction for the scan loop: if (1) once `in_range` is set every
remaining reference position lies strictly beyond `region.start`, (2) a
pending insertion run implies `in_range`, (3) all rows written so far lie in
`[0, w)`, and the remaining reference positions are strictly increasing, then
every row ever written lies in `[0, w)`. -/
theorem scanPairs_writes_bound (read : Read) (region : Region) (w : ℕ)
    (hww : (w : ℤ) = region.end_ - region.start) (hw1 : 1 ≤ w) :
    ∀ (l : List (Option ℤ × Option ℤ)) (st : EncState),
      (st.in_range = true → ∀ x ∈ l.filterMap Prod.snd, region.start < x) →
      (st.insert_seq_list ≠ [] → st.in_range = true) →
      (∀ i ∈ st.writes, 0 ≤ i ∧ i < (w : ℤ)) →
      (l.filterMap Prod.snd).Pairwise (· < ·) →
      ∀ i ∈ (scanPairs read region w st l).writes, 0 ≤ i ∧ i < (w : ℤ) := by
  have h1le : (1 : ℤ) ≤ (w : ℤ) := by exact_mod_cast hw1
  intro l
  induction l with
  | nil =>
    intro st _ _ h3 _
    simpa [scanPairs] using h3
  | cons p rest ih =>
    obtain ⟨ri, fi⟩ := p
    intro st hA1 hA2 hA3 hmono
    rw [scanPairs]
    split_ifs with hstart hbreak hir
    · -- the reference position equals `region.start`
      obtain ⟨v, rfl⟩ : ∃ v, fi = some v := by
        cases fi
        · simp [optEqInt] at hstart
        · exact ⟨_, rfl⟩
      have hv : v = region.start := by simpa [optEqInt] using hstart
      subst hv
      have hcons : ((ri, some region.start) :: rest).filterMap Prod.snd =
          region.start :: rest.filterMap Prod.snd := by
        simp [List.filterMap_cons]
      rw [hcons] at hmono
      have hrest_gt : ∀ x ∈ rest.filterMap Prod.snd, region.start < x :=
        (List.pairwise_cons.mp hmono).1
      have hins : st.insert_seq_list = [] := by
        by_contra hne
        have hgt := hA1 (hA2 hne) region.start
          (by rw [hcons]; exact List.mem_cons_self _ _)
        exact lt_irrefl _ hgt
      apply ih
      · intro _ x hx
        exact hrest_gt x hx
      · intro _
        rw [processPair_in_range]
      · intro i hi
        rcases processPair_writes read region w _ ri (some region.start) i hi
          with hmem | ⟨_, hrow⟩
        · exact hA3 i hmem
        · rcases hrow with h | ⟨hne2, _⟩
          · simp only [Option.getD_some] at h
            subst h
            constructor <;> omega
          · exact absurd hins hne2
      · exact (List.pairwise_cons.mp hmono).2
    · -- break: a truthy reference position at or beyond `region.end`
      exact hA3
    · -- continue scanning, `in_range` already set
      have hmono' : (rest.filterMap Prod.snd).Pairwise (· < ·) := by
        cases fi with
        | none => simpa [List.filterMap_cons] using hmono
        | some v =>
          simp only [List.filterMap_cons] at hmono
          exact (List.pairwise_cons.mp hmono).2
      apply ih
      · intro _ x hx
        apply hA1 hir
        cases fi with
        | none => simpa [List.filterMap_cons] using hx
        | some v =>
          simp only [List.filterMap_cons]
          exact List.mem_cons_of_mem _ hx
      · intro _
        rw [processPair_in_range]
        exact hir
      · intro i hi
        rcases processPair_writes read region w st ri fi i hi
          with hmem | ⟨htr, hrow⟩
        · exact hA3 i hmem
        · obtain ⟨v, rfl⟩ : ∃ v, fi = some v := by
            cases fi
            · simp [truthy] at htr
            · exact ⟨_, rfl⟩
          have hvgt : region.start < v := by
            apply hA1 hir v
            simp only [List.filterMap_cons]
            exact List.mem_cons_self _ _
          have hvlt : v < region.end_ := by
            by_contra hge
            exact hbreak ⟨htr, by simpa using not_lt.mp hge⟩
          rcases hrow with h | ⟨_, h⟩ <;>
            (simp only [Option.getD_some] at h; subst h;
              constructor <;> omega)
      · exact hmono'
    · -- continue scanning, not yet in range: the state is unchanged
      apply ih
      · intro htrue
        exact absurd htrue hir
      · exact hA2
      · exact hA3
      · cases fi with
        | none => simpa [List.filterMap_cons] using hmono
        | some v =>
          simp only [List.filterMap_cons] at hmono
          exact (List.pairwise_cons.mp hmono).2

/-- C7: for every read and every region of width `window = end - start ≥ 1`
whose aligned pairs carry strictly increasing reference positions, every row
the encoder ever writes in the alignment array or the quality array —
including the `row - 1` writes of the forward-strand insertion fold — lies in
`[0, window)`; out-of-bounds indexing is unreachable. -/
theorem encoder_writes_in_bounds (read : Read) (region : Region) (w : ℕ)
    (hww : (w : ℤ) = region.end_ - region.start) (hw1 : 1 ≤ w)
    (hmono : (read.pairs.filterMap Prod.snd).Pairwise (· < ·)) :
    ∀ i ∈ (finalState read region w).writes, 0 ≤ i ∧ i < (w : ℤ) := by
  apply scanPairs_writes_bound read region w hww hw1 read.pairs initState
  · intro h
    simp [initState] at h
  · intro h
    simp [initState] at h
  · intro i hi
    simp [initState] at hi
  · exact hmono

/-- Witness for C7: a concrete two-column region, a read matching both
columns with an insertion in between, and the row 0 it writes. -/
theorem encoder_writes_in_bounds_witness :
    (0 : ℤ) ∈ (finalState
        ⟨"r1", false, [(some 1, some 100), (some 2, none), (some 3, some 101)],
          fun _ => Base.A, fun _ => 30⟩
        ⟨"chr1", 100, 102, '+', "", 0⟩ 2).writes ∧
      (0 ≤ (0 : ℤ) ∧ (0 : ℤ) < ((2 : ℕ) : ℤ)) :=
  ⟨by decide,
    encoder_writes_in_bounds
      ⟨"r1", false, [(some 1, some 100), (some 2, none), (some 3, some 101)],
        fun _ => Base.A, fun _ => 30⟩
      ⟨"chr1", 100, 102, '+', "", 0⟩ 2 (by decide) (by decide) (by decide) 0
      (by decide)⟩

theorem length_filterMap_eq_length_filter {α β : Type} (f : α → Option β)
    (l : List α) :
    (l.filterMap f).length = (l.filter fun a => (f a).isSome).length := by
  induction l with
  | nil => rfl
  | cons a t ih =>
    cases h : f a <;>
      simp [List.filterMap_cons, List.filter_cons, h, ih]

/-- C9: the encoder returns the empty result (`{}`, modelled `none`) — not an
error — exactly when the read's strand differs from the region's strand or
the produced one-hot array has no set bits; and a non-skipping driver run
stores exactly the non-empty results (one stored tensor per read whose
encoder result is non-empty). -/
theorem get_read_alignment_empty_iff (read : Read) (region : Region) (w : ℕ)
    (fs : FS) (region_string : String) (reads : List Read)
    (overwrite : Bool) :
    (get_read_alignment read region w = none ↔
      ((if read.is_reverse then '-' else '+') ≠ region.strand ∨
        anyHot w (finalState read region w).range_one_hot = false)) ∧
    (overwrite = true ∨ fs.done region_string = false →
      (get_region_alignment fs region region_string reads w
          overwrite).1.alignments region_string =
        some ((reads.filterMap fun rd => get_read_alignment rd region w).map
          (fun rec => rec.alignment)) ∧
      (reads.filterMap fun rd => get_read_alignment rd region w).length =
        (reads.filter fun rd =>
          (get_read_alignment rd region w).isSome).length) := by
  constructor
  · unfold get_read_alignment
    by_cases hs : (if read.is_reverse then '-' else '+') ≠ region.strand
    · simp [hs]
    · rw [if_neg hs]
      by_cases ha : anyHot w (finalState read region w).range_one_hot
      · simp [hs, ha]
      · simp [hs, ha]
  · intro hrun
    unfold get_region_alignment
    rw [if_neg (by rcases hrun with h | h <;> simp [h])]
    exact ⟨by simp, length_filterMap_eq_length_filter _ _⟩

/-- Witness for C9: an overwrite run of the driver over an empty fetch list
stores the empty results list. -/
theorem get_read_alignment_empty_iff_witness :
    (get_region_alignment ⟨fun _ => false, fun _ => none, fun _ => none⟩
        ⟨"chr1", 5, 6, '+', "", 0⟩ "chr1_+_5-6" [] 1 true).1.alignments
        "chr1_+_5-6" =
      some ((([] : List Read).filterMap fun rd =>
        get_read_alignment rd ⟨"chr1", 5, 6, '+', "", 0⟩ 1).map
          (fun rec => rec.alignment)) ∧
    (([] : List Read).filterMap fun rd =>
        get_read_alignment rd ⟨"chr1", 5, 6, '+', "", 0⟩ 1).length =
      (([] : List Read).filter fun rd =>
        (get_read_alignment rd ⟨"chr1", 5, 6, '+', "", 0⟩ 1).isSome).length :=
  (get_read_alignment_empty_iff
    ⟨"r1", false, [], fun _ => Base.A, fun _ => 30⟩
    ⟨"chr1", 5, 6, '+', "", 0⟩ 1
    ⟨fun _ => false, fun _ => none, fun _ => none⟩ "chr1_+_5-6" [] true).2
    (Or.inl rfl)

/-- C8: with the `.ali.done` marker present and no overwrite requested, the
driver returns with the filesystem unchanged and an empty action trace (no
source open, zero reads fetched, no file written); otherwise it opens the
source, fetches every read, saves the alignment tensor and the quality
matrix once each, and only then touches the marker — so after the run the
marker exists together with both freshly written arrays, and no other
region's files are touched. -/
theorem get_region_alignment_marker_contract (fs : FS) (region : Region)
    (region_string : String) (reads : List Read) (w : ℕ)
    (overwrite : Bool) :
    (overwrite = false → fs.done region_string = true →
      get_region_alignment fs region region_string reads w overwrite =
        (fs, [])) ∧
    (overwrite = true ∨ fs.done region_string = false →
      (get_region_alignment fs region region_string reads w overwrite).2 =
        Event.openSource :: (reads.map fun _ => Event.fetchRead) ++
          [Event.saveAlignment, Event.saveQuality, Event.touchMarker] ∧
      (get_region_alignment fs region region_string reads w
          overwrite).1.done region_string = true ∧
      (get_region_alignment fs region region_string reads w
          overwrite).1.alignments region_string =
        some ((reads.filterMap fun rd => get_read_alignment rd region w).map
          (fun rec => rec.alignment)) ∧
      (get_region_alignment fs region region_string reads w
          overwrite).1.qualities region_string =
        some ((reads.filterMap fun rd => get_read_alignment rd region w).map
          (fun rec => rec.quality)) ∧
      ∀ s, s ≠ region_string →
        (get_region_alignment fs region region_string reads w
            overwrite).1.done s = fs.done s ∧
        (get_region_alignment fs region region_string reads w
            overwrite).1.alignments s = fs.alignments s ∧
        (get_region_alignment fs region region_string reads w
            overwrite).1.qualities s = fs.qualities s) := by
  constructor
  · intro ho hd
    unfold get_region_alignment
    rw [if_pos (by simp [ho, hd])]
  · intro hrun
    unfold get_region_alignment
    rw [if_neg (by rcases hrun with h | h <;> simp [h])]
    refine ⟨rfl, by simp, by simp, by simp, ?_⟩
    intro s hs
    exact ⟨by simp [hs], by simp [hs], by simp [hs]⟩

/-- Witness for C8: with the marker present and overwrite off, a concrete
driver run is the identity on the filesystem and performs no action. -/
theorem get_region_alignment_marker_contract_witness :
    get_region_alignment ⟨fun _ => true, fun _ => none, fun _ => none⟩
        ⟨"chr1", 5, 6, '+', "", 0⟩ "chr1_+_5-6" [] 1 false =
      (⟨fun _ => true, fun _ => none, fun _ => none⟩, []) :=
  (get_region_alignment_marker_contract
    ⟨fun _ => true, fun _ => none, fun _ => none⟩
    ⟨"chr1", 5, 6, '+', "", 0⟩ "chr1_+_5-6" [] 1 false).1 rfl rfl

end CatMOD
